import Mathlib

/-!
Verification of the indexsupply/x discovery stack core: the RLP codec
(src/unnamed/part_002), the Kademlia routing table (src/discv4/kademlia.go)
and the discv4 protocol engine (src/unnamed/part_001), shallowly embedded.

Conventions of the embedding:
* Go byte strings are `List Nat` whose elements are < 256 (enforced by
  hypotheses or by construction); Go byte arithmetic that provably cannot
  wrap below 256 is written as plain `Nat` arithmetic, with a comment at
  each spot justifying the bound.
* Go panics (index out of range, slice bounds out of range) are modelled
  as `Option.none`.  Slices are modelled by their contents, i.e. with
  capacity equal to length, which is exact for freshly returned buffers.
* Fallible Go calls that live outside the embedded files (UDP writes,
  signature code, the `enr` helpers) enter the model as explicit inputs.
-/

set_option maxRecDepth 16384

namespace rlp

/-- Go `Item` (part_002:23-26): `D []byte` and `L []*Item`; a nil slice is
`none`, a non-nil (possibly empty) slice is `some`. -/
inductive Item : Type where
  | mk (D : Option (List Nat)) (L : Option (List Item)) : Item

/-- Projection for the `D` field of `Item`. -/
def Item.D : Item → Option (List Nat)
  | .mk d _ => d

/-- Projection for the `L` field of `Item`. -/
def Item.L : Item → Option (List Item)
  | .mk _ l => l

/-- Fuelled loop of `binary.PutUvarint`; the fuel is an artifact of the
embedding (structural recursion), always sufficient at the call below. -/
def putUvarintAux : Nat → Nat → List Nat
  | 0, _ => []
  | fuel + 1, x =>
    if x < 128 then [x] else (x % 128 + 128) :: putUvarintAux fuel (x / 128)

/-- The byte sequence `binary.PutUvarint` writes for `x` (LEB128 varint:
low 7 bits first, continuation bit 0x80 on every byte but the last). -/
def putUvarintBytes (x : Nat) : List Nat := putUvarintAux (x + 1) x

/-- The fuel in `putUvarintAux` is irrelevant once it exceeds the value. -/
theorem putUvarintAux_mono : ∀ f₁ f₂ x, x < f₁ → x < f₂ →
    putUvarintAux f₁ x = putUvarintAux f₂ x := by
  intro f₁
  induction f₁ with
  | zero => omega
  | succ f ih =>
    intro f₂ x h₁ h₂
    rcases f₂ with - | f₂'
    · omega
    · simp only [putUvarintAux]
      split
      · rfl
      · rename_i hx
        have hd : x / 128 < x := Nat.div_lt_self (by omega) (by omega)
        rw [ih f₂' (x / 128) (by omega) (by omega)]

/-- Unfolding equation for `putUvarintBytes`, matching the loop in
`binary.PutUvarint`. -/
theorem putUvarintBytes_eq (x : Nat) :
    putUvarintBytes x =
      if x < 128 then [x] else (x % 128 + 128) :: putUvarintBytes (x / 128) := by
  show putUvarintAux (x + 1) x = _
  rcases Nat.lt_or_ge x 128 with h | h
  · simp [putUvarintAux, h]
  · have hd : x / 128 < x := Nat.div_lt_self (by omega) (by omega)
    simp only [putUvarintAux, if_neg (by omega : ¬x < 128)]
    rw [putUvarintAux_mono x (x / 128 + 1) (x / 128) (by omega) (by omega)]
    rfl


/-- Core of `binary.Uvarint`: reads bytes until one without the
continuation bit; `none` when the buffer runs out first (Go then returns
value 0).  The shift accumulator `s` grows by 7 per byte; every call in
this file passes at most 8 bytes, so `s ≤ 49` and the `uint64` arithmetic
in Go cannot wrap; `x | b<<s` adds disjoint bit ranges, hence `+`. -/
def uvarintCore : List Nat → Nat → Option Nat
  | [], _ => none
  | b :: bs, s =>
    if b < 128 then some (b <<< s)
    else (uvarintCore bs (s + 7)).map (fun v => (b % 128) <<< s + v)

/-- `binary.Uvarint` value, with Go's `0` result on a truncated varint. -/
def uvarint (bs : List Nat) : Nat := (uvarintCore bs 0).getD 0

/-- Go `encodeLength` (part_002:62-71).  `binary.PutUvarint` writes into an
8-byte buffer and panics (`none`) if the varint needs more than 8 bytes.
The header byte `byte(uint8(t)+uint8(n))` cannot wrap: `t` is 183 or 247
at every call site and `n ≤ 8`, so `t + n ≤ 255`. -/
def encodeLength (t : Nat) (l : Nat) : Option (List Nat) :=
  let bs := putUvarintBytes l
  if bs.length ≤ 8 then some ((t + bs.length) :: bs) else none

/-- Header step for the list arm of `Encode` (part_002:50-59): `out` is the
concatenation of the children's encodings.  `list55L + byte(len(out))`
cannot wrap when `len(out) ≤ 55`. -/
def listWrap (out : List Nat) : Option (List Nat) :=
  if out.length ≤ 55 then some ((192 + out.length) :: out)
  else match encodeLength 247 out.length with
    | some hdr => some (hdr ++ out)
    | none => none

mutual
/-- Go `Encode` (part_002:28-60).  The `D != nil` arm runs whenever `D` is
set, even if `L` is set too; `str55L + byte(n)` cannot wrap for `n ≤ 55`.
`none` models the `PutUvarint` panic for lengths needing > 8 varint
bytes. -/
def Encode : Item → Option (List Nat)
  | .mk (some d) _ =>
    if d.length = 1 ∧ d.headD 0 ≤ 127 then some d
    else if d.length ≤ 55 then some ((128 + d.length) :: d)
    else match encodeLength 183 d.length with
      | some hdr => some (hdr ++ d)
      | none => none
  | .mk none none => listWrap []
  | .mk none (some cs) =>
    match encodeList cs with
    | some out => listWrap out
    | none => none

/-- The loop at part_002:46-49: children's encodings concatenated. -/
def encodeList : List Item → Option (List Nat)
  | [] => some []
  | c :: cs =>
    match Encode c, encodeList cs with
    | some b, some bs => some (b ++ bs)
    | _, _ => none
end

/-- Go `decodeLength` (part_002:73-77): `n := input[0] - t`, then
`binary.Uvarint(input[1:n+1])`; `none` when the slice `input[1:n+1]`
is out of range or `input` is empty.  At every call site `input[0] ≥ t`
(guard of the surrounding case), so the byte subtraction cannot wrap. -/
def decodeLength (t : Nat) : List Nat → Option Nat
  | [] => none
  | b :: rest =>
    let n := b - t
    if rest.length < n then none
    else some (n + uvarint (rest.take n))

/-- The switch inside `Decode`'s list loop (part_002:106-125): number of
bytes `n` consumed by the child whose header is at the head of `rem`.
Byte subtractions cannot wrap: each arm's guard bounds the header below. -/
def childSize (rem : List Nat) : Option Nat :=
  match rem with
  | [] => none
  | c :: _ =>
    if c ≤ 127 then some 1
    else if c ≤ 183 then some (1 + (c - 128))
    else if c ≤ 191 then (decodeLength 183 rem).map (1 + ·)
    else if c ≤ 247 then some (1 + (c - 192))
    else (decodeLength 247 rem).map (1 + ·)

/-- A child always consumes at least its header byte. -/
theorem childSize_pos {rem : List Nat} {n : Nat} (h : childSize rem = some n) :
    1 ≤ n := by
  rcases rem with - | ⟨c, rest⟩
  · exact absurd h (by simp [childSize])
  · simp only [childSize] at h
    split at h
    · injection h with h; omega
    · split at h
      · injection h with h; omega
      · split at h
        · obtain ⟨a, -, ha⟩ := Option.map_eq_some'.mp h
          omega
        · split at h
          · injection h with h; omega
          · obtain ⟨a, -, ha⟩ := Option.map_eq_some'.mp h
            omega

mutual
/-- Fuelled body of Go `Decode` (part_002:79-132); the fuel is an artifact
of the embedding (structural recursion) and is always sufficient at the
`Decode` wrapper below — see `Decode_cons` for the clean unfolding.
`none` models the panics: `input[0]` on an empty buffer, and the slices
`input[i:n]` / `input[i:i+n]` when the declared extent exceeds the buffer.
In the string cases `i ≤ n` always holds, so only `n > len(input)` can
panic.  The list case ignores the declared list length: it only skips the
length bytes (`i`) and then scans children to the end of the buffer. -/
def decodeF : Nat → List Nat → Option Item
  | 0, _ => none
  | fuel + 1, input =>
    match input with
    | [] => none
    | b :: rest =>
      if b ≤ 127 then some (.mk (some [b]) none)
      else if b ≤ 183 then
        let n := b - 127
        if (b :: rest).length < n then none
        else some (.mk (some (((b :: rest).take n).drop 1)) none)
      else if b ≤ 191 then
        match decodeLength 183 (b :: rest) with
        | none => none
        | some dl =>
          let n := 1 + dl
          if (b :: rest).length < n then none
          else some (.mk (some (((b :: rest).take n).drop (1 + (b - 183)))) none)
      else
        let i := if 248 ≤ b then 1 + (b - 247) else 1
        match scanF fuel ((b :: rest).drop i) with
        | some l => some (.mk none (some l))
        | none => none

/-- Fuelled loop `for i < len(input)` of `Decode`'s list case
(part_002:105-129), on the suffix `rem = input[i:]`. -/
def scanF : Nat → List Nat → Option (List Item)
  | 0, _ => none
  | fuel + 1, rem =>
    match rem with
    | [] => some []
    | c :: rest =>
      match childSize (c :: rest) with
      | none => none
      | some n =>
        if (c :: rest).length < n then none
        else
          match decodeF fuel ((c :: rest).take n), scanF fuel ((c :: rest).drop n) with
          | some it, some its => some (it :: its)
          | _, _ => none
end

/-- Go `Decode` (part_002:79-132): the fuel `2·len+1` strictly dominates
the recursion depth (each recursive call loses at least one unit of the
measure 2·length (+1 on the scanning side)). -/
def Decode (input : List Nat) : Option Item :=
  decodeF (2 * input.length + 1) input

/-- The child scan of `Decode`'s list case, with sufficient fuel. -/
def scanChildren (rem : List Nat) : Option (List Item) :=
  scanF (2 * rem.length + 2) rem

/-- Any fuel beyond the measure computes the same result ( `decodeF` and
`scanF` are fuel-monotone). -/
theorem decodeF_scanF_mono : ∀ f : Nat,
    (∀ input f₂, 2 * input.length < f → (2 : Nat) * input.length < f₂ →
      decodeF f input = decodeF f₂ input) ∧
    (∀ rem f₂, 2 * rem.length + 1 < f → 2 * rem.length + 1 < f₂ →
      scanF f rem = scanF f₂ rem) := by
  intro f
  induction f with
  | zero => exact ⟨fun input f₂ h => absurd h (by omega), fun rem f₂ h => absurd h (by omega)⟩
  | succ f ih =>
    constructor
    · intro input f₂ h₁ h₂
      rcases f₂ with - | g
      · omega
      · rcases input with - | ⟨b, rest⟩
        · rfl
        · simp only [List.length_cons] at h₁ h₂
          simp only [decodeF]
          by_cases hb1 : b ≤ 127
          · simp only [if_pos hb1]
          · simp only [if_neg hb1]
            by_cases hb2 : b ≤ 183
            · simp only [if_pos hb2]
            · simp only [if_neg hb2]
              by_cases hb3 : b ≤ 191
              · simp only [if_pos hb3]
              · simp only [if_neg hb3]
                have hlen : ∀ i : Nat, 1 ≤ i →
                    2 * ((b :: rest).drop i).length + 1 < f ∧
                    2 * ((b :: rest).drop i).length + 1 < g := by
                  intro i hi
                  simp only [List.length_drop, List.length_cons]
                  omega
                by_cases hb4 : 248 ≤ b
                · simp only [if_pos hb4]
                  rw [ih.2 ((b :: rest).drop (1 + (b - 247))) g
                    (hlen _ (by omega)).1 (hlen _ (by omega)).2]
                · simp only [if_neg hb4]
                  rw [ih.2 ((b :: rest).drop 1) g (hlen 1 le_rfl).1 (hlen 1 le_rfl).2]
    · intro rem f₂ h₁ h₂
      rcases f₂ with - | g
      · omega
      · rcases rem with - | ⟨c, rest⟩
        · rfl
        · simp only [List.length_cons] at h₁ h₂
          simp only [scanF]
          rcases hn : childSize (c :: rest) with - | n
          · simp only [hn]
          · have hpos := childSize_pos hn
            simp only [hn]
            by_cases hlt : (c :: rest).length < n
            · rw [if_pos (by simpa using hlt), if_pos (by simpa using hlt)]
            · rw [if_neg (by simpa using hlt), if_neg (by simpa using hlt)]
              have htake : 2 * ((c :: rest).take n).length < f ∧
                  (2 : Nat) * ((c :: rest).take n).length < g := by
                simp only [List.length_take, List.length_cons]
                omega
              have hdrop : 2 * ((c :: rest).drop n).length + 1 < f ∧
                  2 * ((c :: rest).drop n).length + 1 < g := by
                simp only [List.length_drop, List.length_cons]
                omega
              rw [ih.1 ((c :: rest).take n) g htake.1 htake.2,
                ih.2 ((c :: rest).drop n) g hdrop.1 hdrop.2]

/-- `Decode` of the empty buffer panics (`input[0]`). -/
theorem Decode_nil : Decode [] = none := rfl

/-- Unfolding of `Decode` on a non-empty buffer, mirroring the `switch`
of part_002:80-131 with the recursive scan expressed via
`scanChildren`. -/
theorem Decode_cons (b : Nat) (rest : List Nat) :
    Decode (b :: rest) =
      if b ≤ 127 then some (.mk (some [b]) none)
      else if b ≤ 183 then
        if (b :: rest).length < b - 127 then none
        else some (.mk (some (((b :: rest).take (b - 127)).drop 1)) none)
      else if b ≤ 191 then
        match decodeLength 183 (b :: rest) with
        | none => none
        | some dl =>
          if (b :: rest).length < 1 + dl then none
          else some (.mk (some (((b :: rest).take (1 + dl)).drop (1 + (b - 183)))) none)
      else
        match scanChildren ((b :: rest).drop (if 248 ≤ b then 1 + (b - 247) else 1)) with
        | some l => some (.mk none (some l))
        | none => none := by
  have key : ∀ F : Nat, 2 * (b :: rest).length ≤ F → decodeF (F + 1) (b :: rest) =
      (if b ≤ 127 then some (.mk (some [b]) none)
      else if b ≤ 183 then
        if (b :: rest).length < b - 127 then none
        else some (.mk (some (((b :: rest).take (b - 127)).drop 1)) none)
      else if b ≤ 191 then
        match decodeLength 183 (b :: rest) with
        | none => none
        | some dl =>
          if (b :: rest).length < 1 + dl then none
          else some (.mk (some (((b :: rest).take (1 + dl)).drop (1 + (b - 183)))) none)
      else
        match scanChildren ((b :: rest).drop (if 248 ≤ b then 1 + (b - 247) else 1)) with
        | some l => some (.mk none (some l))
        | none => none) := by
    intro F hF
    simp only [decodeF, List.length_cons]
    by_cases hb1 : b ≤ 127
    · simp only [if_pos hb1]
    · simp only [if_neg hb1]
      by_cases hb2 : b ≤ 183
      · simp only [if_pos hb2]
      · simp only [if_neg hb2]
        by_cases hb3 : b ≤ 191
        · simp only [if_pos hb3]
        · simp only [if_neg hb3]
          simp only [List.length_cons] at hF
          have harg : ∀ i : Nat, 1 ≤ i →
              scanF F ((b :: rest).drop i) = scanChildren ((b :: rest).drop i) := by
            intro i hi
            show _ = scanF (2 * ((b :: rest).drop i).length + 2) _
            refine (decodeF_scanF_mono F).2 _ _ ?_ ?_ <;>
              · simp only [List.length_drop, List.length_cons]
                omega
          by_cases hb4 : 248 ≤ b
          · simp only [if_pos hb4]
            rw [harg _ (by omega)]
          · simp only [if_neg hb4]
            rw [harg 1 le_rfl]
  exact key (2 * (b :: rest).length) le_rfl

/-- Scanning an exhausted list payload yields no further children. -/
theorem scanChildren_nil : scanChildren [] = some [] := rfl

/-- Unfolding of the child scan on a non-empty suffix. -/
theorem scanChildren_cons (c : Nat) (rest : List Nat) :
    scanChildren (c :: rest) =
      match childSize (c :: rest) with
      | none => none
      | some n =>
        if (c :: rest).length < n then none
        else
          match Decode ((c :: rest).take n), scanChildren ((c :: rest).drop n) with
          | some it, some its => some (it :: its)
          | _, _ => none := by
  have key : ∀ F : Nat, 2 * (c :: rest).length + 1 ≤ F → scanF (F + 1) (c :: rest) =
      (match childSize (c :: rest) with
      | none => none
      | some n =>
        if (c :: rest).length < n then none
        else
          match Decode ((c :: rest).take n), scanChildren ((c :: rest).drop n) with
          | some it, some its => some (it :: its)
          | _, _ => none) := by
    intro F hF
    simp only [List.length_cons] at hF
    simp only [scanF, List.length_cons]
    rcases hn : childSize (c :: rest) with - | n
    · simp only [hn]
    · have hpos := childSize_pos hn
      simp only [hn]
      by_cases hlt : rest.length + 1 < n
      · rw [if_pos hlt, if_pos hlt]
      · rw [if_neg hlt, if_neg hlt]
        have htake : decodeF F ((c :: rest).take n) = Decode ((c :: rest).take n) := by
          show _ = decodeF (2 * ((c :: rest).take n).length + 1) _
          refine (decodeF_scanF_mono F).1 _ _ ?_ ?_ <;>
            · simp only [List.length_take, List.length_cons]
              omega
        have hdrop : scanF F ((c :: rest).drop n) = scanChildren ((c :: rest).drop n) := by
          show _ = scanF (2 * ((c :: rest).drop n).length + 2) _
          refine (decodeF_scanF_mono F).2 _ _ ?_ ?_ <;>
            · simp only [List.length_drop, List.length_cons]
              omega
        rw [htake, hdrop]
  exact key (2 * (c :: rest).length + 1) le_rfl

mutual
/-- Well-formed `Item` tree: exactly one of `D`, `L` is set ("Set D or L
but not both", part_002:19) and string payloads are genuine bytes. -/
def wf : Item → Bool
  | .mk (some d) none => d.all (fun b => decide (b < 256))
  | .mk none (some cs) => wfList cs
  | _ => false

/-- Every item of the list is well-formed. -/
def wfList : List Item → Bool
  | [] => true
  | c :: cs => wf c && wfList cs
end

/-- `binary.PutUvarint` always writes at least one byte. -/
theorem putUvarintBytes_ne_nil (x : Nat) : putUvarintBytes x ≠ [] := by
  rw [putUvarintBytes_eq]
  split <;> simp

/-- Reading back a written varint recovers the value (`binary.Uvarint` of
`binary.PutUvarint`), at any shift accumulator. -/
theorem uvarintCore_putUvarintBytes (x : Nat) :
    ∀ s : Nat, uvarintCore (putUvarintBytes x) s = some (x <<< s) := by
  induction x using Nat.strong_induction_on with
  | _ x ih =>
    intro s
    rw [putUvarintBytes_eq]
    split
    · simp [uvarintCore, *]
    · rename_i hx
      have hrec := ih (x / 128) (Nat.div_lt_self (by omega) (by omega)) (s + 7)
      simp only [uvarintCore, show ¬(x % 128 + 128 < 128) by omega, if_neg,
        not_false_iff, hrec, Option.map_some']
      congr 1
      have h1 : (x % 128 + 128) % 128 = x % 128 := by omega
      rw [h1, Nat.shiftLeft_eq, Nat.shiftLeft_eq, Nat.shiftLeft_eq, pow_add]
      have h2 : x % 128 + 128 * (x / 128) = x := Nat.mod_add_div x 128
      calc x % 128 * 2 ^ s + x / 128 * (2 ^ s * 2 ^ 7)
          = (x % 128 + 128 * (x / 128)) * 2 ^ s := by ring
        _ = x * 2 ^ s := by rw [h2]

/-- `uvarint` inverts `putUvarintBytes`, also with trailing bytes after
the terminator (Go stops at the first byte without the continuation
bit). -/
theorem uvarint_putUvarintBytes (x : Nat) :
    uvarint (putUvarintBytes x) = x := by
  simp [uvarint, uvarintCore_putUvarintBytes x 0]

/-- Inversion of a successful `encodeLength`: the header byte plus the
varint bytes, with the varint at most 8 bytes (the Go buffer size). -/
theorem encodeLength_inv {t l : Nat} {hdr : List Nat}
    (h : encodeLength t l = some hdr) :
    hdr = (t + (putUvarintBytes l).length) :: putUvarintBytes l ∧
      1 ≤ (putUvarintBytes l).length ∧ (putUvarintBytes l).length ≤ 8 := by
  simp only [encodeLength] at h
  split at h
  · rename_i hle
    injection h with h
    refine ⟨h.symm, ?_, hle⟩
    have := putUvarintBytes_ne_nil l
    cases hp : putUvarintBytes l with
    | nil => exact absurd hp this
    | cons a as => simp [hp]
  · exact absurd h (by simp)

/-- `decodeLength` inverts `encodeLength`: on the emitted header followed
by anything, it returns the varint byte count plus the encoded value. -/
theorem decodeLength_encodeLength {t l : Nat} {hdr : List Nat}
    (h : encodeLength t l = some hdr) (suffix : List Nat) :
    decodeLength t (hdr ++ suffix) = some ((putUvarintBytes l).length + l) := by
  obtain ⟨hhdr, hk1, hk8⟩ := encodeLength_inv h
  subst hhdr
  simp only [List.cons_append, decodeLength, Nat.add_sub_cancel_left]
  rw [if_neg (by simp only [List.length_append]; omega), List.take_left,
    uvarint_putUvarintBytes]

/-- A successful `Encode` never returns an empty buffer. -/
theorem Encode_ne_nil {T : Item} {bs : List Nat} (h : Encode T = some bs) :
    bs ≠ [] := by
  rcases T with ⟨D, L⟩
  rcases D with - | d
  · rcases L with - | cs <;>
      · rw [Encode] at h
        first
        | (simp only [listWrap] at h
           split at h
           · injection h with h; simp [← h]
           · split at h
             · rename_i hdr hhdr
               injection h with h
               simp only [encodeLength] at hhdr
               split at hhdr
               · injection hhdr with hhdr
                 simp [← h, ← hhdr]
               · exact absurd hhdr (by simp)
             · exact absurd h (by simp))
        | (split at h
           · rename_i out hout
             simp only [listWrap] at h
             split at h
             · injection h with h; simp [← h]
             · split at h
               · rename_i hdr hhdr
                 injection h with h
                 simp only [encodeLength] at hhdr
                 split at hhdr
                 · injection hhdr with hhdr
                   simp [← h, ← hhdr]
                 · exact absurd hhdr (by simp)
               · exact absurd h (by simp)
           · exact absurd h (by simp))
  · rw [Encode] at h
    split at h
    · rename_i hd
      injection h with h
      subst h
      intro hnil
      simp [hnil] at hd
    · split at h
      · injection h with h; simp [← h]
      · split at h
        · rename_i hdr hhdr
          injection h with h
          simp only [encodeLength] at hhdr
          split at hhdr
          · injection hhdr with hhdr
            simp [← h, ← hhdr]
          · exact absurd hhdr (by simp)
        · exact absurd h (by simp)

/-- Inversion of the string arm of `Encode` (part_002:29-44). -/
theorem Encode_D_inv {d : List Nat} {L : Option (List Item)} {bs : List Nat}
    (he : Encode (.mk (some d) L) = some bs) :
    (d.length = 1 ∧ d.headD 0 ≤ 127 ∧ bs = d) ∨
    (¬(d.length = 1 ∧ d.headD 0 ≤ 127) ∧ d.length ≤ 55 ∧ bs = (128 + d.length) :: d) ∨
    (55 < d.length ∧ 1 ≤ (putUvarintBytes d.length).length ∧
      (putUvarintBytes d.length).length ≤ 8 ∧
      bs = ((183 + (putUvarintBytes d.length).length) :: putUvarintBytes d.length) ++ d) := by
  rw [Encode] at he
  split at he
  · rename_i h1
    injection he with he
    exact Or.inl ⟨h1.1, h1.2, he.symm⟩
  · split at he
    · rename_i h1 h2
      injection he with he
      exact Or.inr (Or.inl ⟨h1, h2, he.symm⟩)
    · split at he
      · rename_i h1 h2 hdr hhdr
        injection he with he
        obtain ⟨hh, hk1, hk8⟩ := encodeLength_inv hhdr
        refine Or.inr (Or.inr ⟨by omega, hk1, hk8, ?_⟩)
        rw [← he, hh]
      · exact absurd he (by simp)

/-- Inversion of `listWrap` (the list-header step, part_002:50-59). -/
theorem listWrap_inv {out bs : List Nat} (h : listWrap out = some bs) :
    (out.length ≤ 55 ∧ bs = (192 + out.length) :: out) ∨
    (55 < out.length ∧ 1 ≤ (putUvarintBytes out.length).length ∧
      (putUvarintBytes out.length).length ≤ 8 ∧
      bs = ((247 + (putUvarintBytes out.length).length) :: putUvarintBytes out.length) ++ out) := by
  rw [listWrap] at h
  split at h
  · rename_i h1
    injection h with h
    exact Or.inl ⟨h1, h.symm⟩
  · rename_i h1
    split at h
    · rename_i hdr hhdr
      injection h with h
      obtain ⟨hh, hk1, hk8⟩ := encodeLength_inv hhdr
      refine Or.inr ⟨by omega, hk1, hk8, ?_⟩
      rw [← h, hh]
    · exact absurd h (by simp)

/-- Inversion of the list arm of `Encode`: the children's concatenated
encodings exist and are wrapped by `listWrap`. -/
theorem Encode_L_inv {L : Option (List Item)} {bs : List Nat}
    (he : Encode (.mk none L) = some bs) :
    ∃ out, encodeList (L.getD []) = some out ∧ listWrap out = some bs := by
  rcases L with - | cs
  · exact ⟨[], rfl, he⟩
  · rw [Encode] at he
    split at he
    · rename_i out hout
      exact ⟨out, hout, he⟩
    · exact absurd he (by simp)

/-- The scanner's header switch computes exactly the length of any
well-formed child encoding, whatever follows it (part_002:106-125). -/
theorem childSize_encode {T : Item} {bs : List Nat}
    (he : Encode T = some bs) (suffix : List Nat) :
    childSize (bs ++ suffix) = some bs.length := by
  rcases T with ⟨D, L⟩
  rcases D with - | d
  · obtain ⟨out, -, hwrap⟩ := Encode_L_inv he
    rcases listWrap_inv hwrap with ⟨hm, hbs⟩ | ⟨hm, hk1, hk8, hbs⟩
    · subst hbs
      simp only [List.cons_append, childSize]
      rw [if_neg (by omega), if_neg (by omega), if_neg (by omega), if_pos (by omega)]
      simp only [Nat.add_sub_cancel_left, List.length_cons]
      exact congrArg some (by omega)
    · subst hbs
      simp only [List.cons_append, List.append_assoc, childSize]
      rw [if_neg (by omega), if_neg (by omega), if_neg (by omega), if_neg (by omega)]
      rw [show ((247 + (putUvarintBytes out.length).length) :: (putUvarintBytes out.length ++ (out ++ suffix))) = ((247 + (putUvarintBytes out.length).length) :: putUvarintBytes out.length) ++ (out ++ suffix) from rfl]
      rw [decodeLength_encodeLength (t := 247) (l := out.length) (by
        simp only [encodeLength]
        rw [if_pos hk8]) (out ++ suffix)]
      simp only [Option.map_some', List.length_cons, List.length_append]
      congr 1
      omega
  · rcases Encode_D_inv he with ⟨h1, h2, hbs⟩ | ⟨h1, h2, hbs⟩ | ⟨h1, hk1, hk8, hbs⟩
    · subst hbs
      obtain ⟨x, hx⟩ := List.length_eq_one.mp h1
      subst hx
      simp only [List.headD_cons] at h2
      simp only [List.cons_append, List.nil_append, childSize]
      rw [if_pos (by omega)]
      simp
    · subst hbs
      simp only [List.cons_append, childSize]
      rw [if_neg (by omega), if_pos (by omega)]
      simp only [Nat.add_sub_cancel_left, List.length_cons]
      exact congrArg some (by omega)
    · subst hbs
      simp only [List.cons_append, List.append_assoc, childSize]
      rw [if_neg (by omega), if_neg (by omega), if_pos (by omega)]
      rw [show ((183 + (putUvarintBytes d.length).length) :: (putUvarintBytes d.length ++ (d ++ suffix))) = ((183 + (putUvarintBytes d.length).length) :: putUvarintBytes d.length) ++ (d ++ suffix) from rfl]
      rw [decodeLength_encodeLength (t := 183) (l := d.length) (by
        simp only [encodeLength]
        rw [if_pos hk8]) (d ++ suffix)]
      simp only [Option.map_some', List.length_cons, List.length_append]
      congr 1
      omega

mutual
/-- Round trip: decoding a well-formed item's encoding recovers it. -/
theorem decode_encode_aux : ∀ (T : Item), wf T = true → ∀ bs : List Nat,
    Encode T = some bs → Decode bs = some T
  | .mk (some d) (some l), hw, bs, he => by
    simp [wf] at hw
  | .mk (some d) none, hw, bs, he => by
    have hd : ∀ b ∈ d, b < 256 := by
      simp only [wf, List.all_eq_true, decide_eq_true_eq] at hw
      exact hw
    rcases Encode_D_inv he with ⟨h1, h2, hbs⟩ | ⟨h1, h2, hbs⟩ | ⟨h1, hk1, hk8, hbs⟩
    · subst hbs
      obtain ⟨x, hx⟩ := List.length_eq_one.mp h1
      subst hx
      simp only [List.headD_cons] at h2
      rw [Decode_cons, if_pos (by omega)]
    · subst hbs
      rw [Decode_cons, if_neg (by omega), if_pos (by omega)]
      rw [if_neg (by simp only [List.length_cons]; omega)]
      have ht : ((128 + d.length) :: d).take (128 + d.length - 127) =
          (128 + d.length) :: d := by
        apply List.take_of_length_le
        simp only [List.length_cons]
        omega
      rw [ht]
      simp
    · subst hbs
      have hdl : decodeLength 183 (((183 + (putUvarintBytes d.length).length) ::
          putUvarintBytes d.length) ++ d) = some ((putUvarintBytes d.length).length + d.length) := by
        apply decodeLength_encodeLength (t := 183) (l := d.length)
        simp only [encodeLength]
        rw [if_pos hk8]
      simp only [List.cons_append] at hdl ⊢
      rw [Decode_cons, if_neg (by omega), if_neg (by omega), if_pos (by omega)]
      simp only [hdl]
      rw [if_neg (by simp only [List.length_cons, List.length_append]; omega)]
      have ht : ((183 + (putUvarintBytes d.length).length) ::
          (putUvarintBytes d.length ++ d)).take
            (1 + ((putUvarintBytes d.length).length + d.length)) =
          (183 + (putUvarintBytes d.length).length) :: (putUvarintBytes d.length ++ d) := by
        apply List.take_of_length_le
        simp only [List.length_cons, List.length_append]
        omega
      rw [ht]
      have hdrop : ((183 + (putUvarintBytes d.length).length) ::
          (putUvarintBytes d.length ++ d)).drop
            (1 + (183 + (putUvarintBytes d.length).length - 183)) = d := by
        rw [Nat.add_sub_cancel_left, Nat.add_comm 1, List.drop_succ_cons]
        exact List.drop_left _ _
      rw [hdrop]
  | .mk none none, hw, bs, he => by
    simp [wf] at hw
  | .mk none (some cs), hw, bs, he => by
    have hwcs : wfList cs = true := hw
    obtain ⟨out, hout, hwrap⟩ := Encode_L_inv he
    have hscan : scanChildren out = some cs :=
      scanChildren_encodeList_aux cs hwcs out hout
    rcases listWrap_inv hwrap with ⟨hm, hbs⟩ | ⟨hm, hk1, hk8, hbs⟩
    · subst hbs
      rw [Decode_cons, if_neg (by omega), if_neg (by omega), if_neg (by omega)]
      rw [if_neg (by omega : ¬248 ≤ 192 + out.length), List.drop_one, List.tail_cons]
      simp only [hscan]
    · subst hbs
      simp only [List.cons_append]
      rw [Decode_cons, if_neg (by omega), if_neg (by omega), if_neg (by omega)]
      rw [if_pos (by omega : 248 ≤ 247 + (putUvarintBytes out.length).length)]
      rw [Nat.add_sub_cancel_left, Nat.add_comm 1, List.drop_succ_cons,
        List.drop_left]
      simp only [hscan]

/-- The scanner applied to a concatenation of well-formed encodings
recovers exactly the encoded children. -/
theorem scanChildren_encodeList_aux : ∀ (l : List Item), wfList l = true →
    ∀ out : List Nat, encodeList l = some out → scanChildren out = some l
  | [], _, out, he => by
    rw [encodeList] at he
    injection he with he
    rw [← he]
    exact scanChildren_nil
  | c :: cs, hw, out, he => by
    have hw2 : wf c = true ∧ wfList cs = true := by
      simp only [wfList, Bool.and_eq_true] at hw
      exact hw
    rw [encodeList] at he
    rcases hEc : Encode c with - | b
    · rw [hEc] at he; exact absurd he (by simp)
    · rcases hEcs : encodeList cs with - | brest
      · rw [hEc, hEcs] at he; exact absurd he (by simp)
      · rw [hEc, hEcs] at he
        injection he with he
        subst he
        rcases hb : b with - | ⟨b0, btl⟩
        · exact absurd hb (Encode_ne_nil hEc)
        · subst hb
          have hcs := childSize_encode hEc brest
          have hdec : Decode (b0 :: btl) = some c :=
            decode_encode_aux c hw2.1 (b0 :: btl) hEc
          have hrest : scanChildren brest = some cs :=
            scanChildren_encodeList_aux cs hw2.2 brest hEcs
          simp only [List.cons_append] at hcs ⊢
          rw [scanChildren_cons]
          simp only [hcs]
          rw [if_neg (by simp only [List.length_cons, List.length_append]; omega)]
          have ht : (b0 :: (btl ++ brest)).take (b0 :: btl).length = b0 :: btl := by
            have h := List.take_left (b0 :: btl) brest
            rw [List.cons_append] at h
            exact h
          have hdr : (b0 :: (btl ++ brest)).drop (b0 :: btl).length = brest := by
            have h := List.drop_left (b0 :: btl) brest
            rw [List.cons_append] at h
            exact h
          rw [ht, hdr]
          simp only [hdec, hrest]
end

/-- C1: evaluating `Encode` at the failing input, a 128-byte string.
`encodeLength` uses `binary.PutUvarint`, so the length 128 is emitted as
the two LEB128 varint bytes `0x80 0x01` under header `0xB7 + 2 = 0xB9`;
the claim requires the minimal big-endian length `0x80` (one byte) under
header `0xB7 + 1 = 0xB8`, and the two encodings differ. -/
theorem C1_encode_uses_varint_not_bigendian :
    Encode (.mk (some (List.replicate 128 97)) none) =
      some (185 :: 128 :: 1 :: List.replicate 128 97) ∧
    some (185 :: 128 :: 1 :: List.replicate 128 97) ≠
      some ((183 + 1) :: 128 :: List.replicate 128 97) := by
  constructor
  · decide
  · decide

/-- C2: for every well-formed `Item` tree (each node setting exactly one
of the byte-string / list variants, with byte payloads below 256),
decoding the bytes produced by `Encode` yields the tree back; byte-string
items are the special case `.mk (some B) none`. -/
theorem C2_decode_encode_roundtrip (T : Item) (hw : wf T = true)
    (bs : List Nat) (he : Encode T = some bs) : Decode bs = some T :=
  decode_encode_aux T hw bs he

/-- A concrete tree exercising the long-string, empty-string and
empty-list arms, with its encoding. -/
def rtTree : Item :=
  .mk none (some [.mk (some (List.replicate 60 7)) none,
                  .mk (some []) none,
                  .mk none (some [])])

/-- The bytes `Encode` produces for `rtTree`. -/
def rtBytes : List Nat :=
  248 :: 64 :: 184 :: 60 :: (List.replicate 60 7 ++ [128, 192])

/-- Witness for C2: the round trip evaluated on `rtTree`. -/
theorem C2_decode_encode_roundtrip_witness :
    wf rtTree = true ∧ Encode rtTree = some rtBytes ∧
      Decode rtBytes = some rtTree :=
  ⟨by decide, by decide,
   C2_decode_encode_roundtrip rtTree (by decide) rtBytes (by decide)⟩

/-- C4 counterexample: `Decode` does not fail where the claim requires.
`[0xC1]` declares a 1-byte list payload but the buffer ends immediately —
a declared length exceeding the remaining bytes, and children (none) that
do not tile the declared payload — yet decoding succeeds with an empty
list.  And after the complete empty-list encoding `[0xC0]`, the trailing
byte `0x05` is absorbed as an extra child instead of being left alone. -/
theorem C4_decode_counterexample :
    Decode [193] = some (.mk none (some [])) ∧
    Decode [192, 5] = some (.mk none (some [.mk (some [5]) none])) :=
  ⟨rfl, rfl⟩

/-- C4 amended: `Decode` never yields an error result; failures surface
only as panics (modelled as `none`), namely on an empty buffer and when a
string header declares more bytes than remain.  A list's declared payload
length is never validated: it only skips the length bytes, after which
children are scanned to the very end of the buffer, so trailing bytes are
absorbed as extra children and no tiling check exists. -/
theorem C4_decode_failure_modes :
    Decode [] = none ∧
    (∀ b rest, 127 < b → b ≤ 183 → (b :: rest : List Nat).length < b - 127 →
      Decode (b :: rest) = none) ∧
    (∀ b rest, 183 < b → b ≤ 191 → decodeLength 183 (b :: rest) = none →
      Decode (b :: rest) = none) ∧
    (∀ b rest, 191 < b → b < 248 →
      Decode (b :: rest) = (scanChildren rest).map (fun l => Item.mk none (some l))) := by
  refine ⟨Decode_nil, ?_, ?_, ?_⟩
  · intro b rest hb1 hb2 hlt
    rw [Decode_cons, if_neg (by omega), if_pos hb2, if_pos hlt]
  · intro b rest hb1 hb2 hdl
    rw [Decode_cons, if_neg (by omega), if_neg (by omega), if_pos hb2]
    simp only [hdl]
  · intro b rest hb1 hb2
    rw [Decode_cons, if_neg (by omega), if_neg (by omega), if_neg (by omega),
      if_neg (by omega : ¬248 ≤ b), List.drop_one, List.tail_cons]
    rcases scanChildren rest with - | l <;> rfl

/-- Witness for C4 amended: a truncated short string `[0xB7]`, a long
string whose buffer ends inside the length bytes `[0xB8]`, and the list
header `[0xC0]` followed by a stray byte being scanned as a child. -/
theorem C4_decode_failure_modes_witness :
    Decode [183] = none ∧ Decode [184] = none ∧
    Decode [192, 5] = (scanChildren [5]).map (fun l => Item.mk none (some l)) :=
  ⟨C4_decode_failure_modes.2.1 183 [] (by decide) (by decide) (by decide),
   C4_decode_failure_modes.2.2.1 184 [] (by decide) (by decide) (by decide),
   C4_decode_failure_modes.2.2.2 192 [5] (by decide) (by decide)⟩

/-- C8: evaluating `Encode` at the failing input `&Item{D: []byte\x7b\x7d,
L: []*Item\x7b\x7d}` (both variants set): the `D != nil` arm wins and the
item is encoded as the empty string `[0x80]`.  `Encode` (part_002) has no
error result at all, while the repo's own `TestEncode`
(src/rlp/rlp_test.go:128-133) expects `ErrTooManyArgs` for this input. -/
theorem C8_encode_both_set_no_error :
    Encode (.mk (some []) (some [])) = some [128] := by decide

end rlp

namespace discv4

/-- Abstract stand-in for `*enr.ENR` (package `enr` is outside the
embedded sources): `addrHex` is the `NodeAddrHex()` identity string that
keys `entriesMap`, and `seq` stands for the rest of the record, so that
replacing the stored record on a duplicate insert is observable. -/
structure ENR where
  addrHex : Nat
  seq : Nat
deriving DecidableEq

/-- Go `bucketEntry` (kademlia.go:25-28), with time as a bare counter. -/
structure bucketEntry where
  node : ENR
  lastSeen : Nat
deriving DecidableEq

/-- `maxBucketSize` (kademlia.go:13). -/
def maxBucketSize : Nat := 16

/-- `bucketsCount` (kademlia.go:15). -/
def bucketsCount : Nat := 20

/-- `minLogDistance` (kademlia.go:16): `addrByteSize + 1 - bucketsCount`
with `addrByteSize = 256`, i.e. 237. -/
def minLogDistance : Nat := 256 + 1 - bucketsCount

/-- Go `kBucket` (kademlia.go:30-36): the `lru` list front (most recently
seen) to back; `entriesMap` is the by-address view of the same list and
is not modelled separately. -/
def kBucket := List bucketEntry

/-- `kBucket.nodes` (kademlia.go:39-45): the nodes front-to-back. -/
def kBucket.nodes (b : kBucket) : List ENR := b.map (fun e => e.node)

/-- Go `kBucket.store` (kademlia.go:49-67).  A map hit updates the stored
entry in place (`lastSeen` and `node`) and moves it to the front, leaving
the others in order (`eraseP` removes exactly the matched entry); a miss
pushes a fresh entry to the front and, when the bucket then exceeds
`maxBucketSize`, evicts the back (least recently seen) entry. -/
def kBucket.store (b : kBucket) (now : Nat) (n : ENR) : kBucket :=
  if b.any (fun e => e.node.addrHex == n.addrHex) then
    ⟨n, now⟩ :: b.eraseP (fun e => e.node.addrHex == n.addrHex)
  else if maxBucketSize < ((⟨n, now⟩ : bucketEntry) :: b).length then
    ((⟨n, now⟩ : bucketEntry) :: b).dropLast
  else (⟨n, now⟩ : bucketEntry) :: b

/-- Go `kademliaTable` (kademlia.go:19-23); the mutex is elided (all
access is serialized through it). -/
structure kademliaTable where
  selfNode : ENR
  buckets : List kBucket

/-- `newKademliaTable` (kademlia.go:69-79): 20 empty buckets. -/
def newKademliaTable (self : ENR) : kademliaTable :=
  ⟨self, List.replicate bucketsCount []⟩

/-- Go `kademliaTable.Insert` (kademlia.go:83-94).  `enr.LogDistance` is
outside the embedded sources and enters as the parameter `dist`; its
values are at most 256, so `d - minLogDistance < 20` and the array index
is in range (out-of-range `List.set` is a no-op where Go would panic). -/
def kademliaTable.Insert (dist : ENR → ENR → Nat) (kt : kademliaTable)
    (now : Nat) (node : ENR) : kademliaTable :=
  let d := max (dist kt.selfNode node) minLogDistance
  ⟨kt.selfNode,
   kt.buckets.set (d - minLogDistance)
     ((kt.buckets.getD (d - minLogDistance) []).store now node)⟩

/-- The gather loop of `FindClosest` (kademlia.go:107-109): every node of
every bucket, in bucket order. -/
def gatherNodes (kt : kademliaTable) : List ENR :=
  kt.buckets.foldl (fun acc b => acc ++ b.nodes) []

/-- `enrSorter.Less` (kademlia.go:125-127) as the non-strict order it
induces on sort keys: `sort.Sort` reorders the data so that `Less(j, i)`
fails for `i < j`, i.e. keys are non-decreasing. -/
def distLe (dist : ENR → ENR → Nat) (target : ENR) (a b : ENR) : Prop :=
  dist a target ≤ dist b target

instance (dist : ENR → ENR → Nat) (target : ENR) :
    DecidableRel (distLe dist target) :=
  fun a b => Nat.decLe (dist a target) (dist b target)

instance (dist : ENR → ENR → Nat) (target : ENR) :
    IsTotal ENR (distLe dist target) :=
  ⟨fun a b => Nat.le_total (dist a target) (dist b target)⟩

instance (dist : ENR → ENR → Nat) (target : ENR) :
    IsTrans ENR (distLe dist target) :=
  ⟨fun _ _ _ => Nat.le_trans⟩

/-- The gather list after `sort.Sort(s)` (kademlia.go:110).  `sort.Sort`
only guarantees an ascending reordering with respect to `Less`; it is
modelled by insertion sort, which establishes exactly that postcondition.
Go's `sort.Sort` is NOT stable, so the order among equal keys is
implementation-defined; no theorem below depends on it. -/
def sortedNodes (dist : ENR → ENR → Nat) (kt : kademliaTable)
    (target : ENR) : List ENR :=
  List.insertionSort (distLe dist target) (gatherNodes kt)

/-- Go `kademliaTable.FindClosest` (kademlia.go:99-112).  The final
`return s.nodes[:count]` reslices beyond the length when `count` exceeds
the gathered total: on a table of empty buckets no append ever grew the
gather slice beyond capacity 0 and Go panics; with spare capacity Go
would instead expose stale slots.  Either way no list of `min(count,
total)` nodes is returned; both are modelled as `none`. -/
def kademliaTable.FindClosest (dist : ENR → ENR → Nat) (kt : kademliaTable)
    (target : ENR) (count : Nat) : Option (List ENR) :=
  let sorted := sortedNodes dist kt target
  if count ≤ sorted.length then some (sorted.take count) else none

/-- A bucket built by a sequence of `store` calls (each a timestamped
node) starting from the empty bucket: every bucket the program reaches
arises this way (`newKademliaTable` starts all buckets empty). -/
def runStores (ops : List (Nat × ENR)) : kBucket :=
  ops.foldl (fun b op => b.store op.1 op.2) []

/-- `store` keeps a bucket within `maxBucketSize`. -/
theorem store_length_le {b : kBucket} (hb : b.length ≤ maxBucketSize)
    (now : Nat) (n : ENR) : (b.store now n).length ≤ maxBucketSize := by
  unfold kBucket.store
  split
  · rename_i h
    obtain ⟨e, he, hpe⟩ := List.any_eq_true.mp h
    simp only [List.length_cons,
      List.length_eraseP_of_mem (p := fun e => e.node.addrHex == n.addrHex) he hpe]
    have := List.length_pos_of_mem he
    omega
  · split
    · simp only [List.length_dropLast, List.length_cons]
      omega
    · rename_i h2
      simp only [List.length_cons] at h2 ⊢
      omega

/-- Every reachable bucket holds at most 16 entries. -/
theorem runStores_length_le (ops : List (Nat × ENR)) :
    (runStores ops).length ≤ maxBucketSize := by
  suffices h : ∀ (l : List (Nat × ENR)) (b : kBucket), b.length ≤ maxBucketSize →
      (l.foldl (fun b op => b.store op.1 op.2) b).length ≤ maxBucketSize by
    exact h ops [] (by simp [maxBucketSize])
  intro l
  induction l with
  | nil => intro b hb; exact hb
  | cons op l ih =>
    intro b hb
    exact ih _ (store_length_le hb _ _)

/-- A `store` hit: same size, the updated entry at the front, and the
address multiset unchanged. -/
theorem store_hit {b : kBucket} {n : ENR} (now : Nat)
    (h : b.any (fun e => e.node.addrHex == n.addrHex) = true) :
    (b.store now n).length = b.length ∧
    (b.store now n).head? = some ⟨n, now⟩ ∧
    ((b.store now n).map (fun e => e.node.addrHex)).Perm
      (b.map (fun e => e.node.addrHex)) := by
  obtain ⟨e, he, hpe⟩ := List.any_eq_true.mp h
  unfold kBucket.store
  rw [if_pos h]
  refine ⟨?_, rfl, ?_⟩
  · simp only [List.length_cons,
      List.length_eraseP_of_mem (p := fun e => e.node.addrHex == n.addrHex) he hpe]
    have := List.length_pos_of_mem he
    omega
  · obtain ⟨a, l₁, l₂, hl₁, hpa, hb, herase⟩ :=
      List.exists_of_eraseP (p := fun e => e.node.addrHex == n.addrHex) he hpe
    rw [herase, hb]
    have haddr : a.node.addrHex = n.addrHex := by simpa using hpa
    simp only [List.map_cons, List.map_append, haddr]
    exact List.perm_middle.symm

/-- Helper: pushing onto a `k`-truncated list and trimming the overflow
from the back is the `k`-truncation of the pushed list. -/
theorem trim_cons_take {α : Type} (y : α) (xs : List α) (k : Nat) (hk : 1 ≤ k) :
    (if k < (y :: xs.take k).length then (y :: xs.take k).dropLast
     else y :: xs.take k) = (y :: xs).take k := by
  by_cases hL : k ≤ xs.length
  · have hlen : (xs.take k).length = k := by
      rw [List.length_take]
      omega
    rw [if_pos (by simp only [List.length_cons, hlen]; omega)]
    rw [List.dropLast_eq_take]
    simp only [List.length_cons, hlen, Nat.add_sub_cancel]
    obtain ⟨k', rfl⟩ : ∃ k', k = k' + 1 := ⟨k - 1, by omega⟩
    rw [List.take_succ_cons, List.take_succ_cons, List.take_take,
      Nat.min_eq_left (by omega : k' ≤ k' + 1)]
  · have hxs : xs.take k = xs := List.take_of_length_le (by omega)
    rw [hxs, if_neg (by simp only [List.length_cons]; omega)]
    rw [List.take_of_length_le (by simp only [List.length_cons]; omega)]

/-- Storing pairwise-distinct nodes never hits the duplicate path: the
bucket is the reversed insertion order, truncated to the 16 most
recent. -/
theorem runStores_of_nodup (ops : List (Nat × ENR))
    (hnd : (ops.map (fun op => op.2.addrHex)).Nodup) :
    (runStores ops).map (fun e => e.node) =
      ((ops.map (fun op => op.2)).reverse).take maxBucketSize := by
  induction ops using List.reverseRecOn with
  | nil => rfl
  | append_singleton ops op ih =>
    have hnd2 : (ops.map (fun op => op.2.addrHex)).Nodup ∧
        op.2.addrHex ∉ ops.map (fun op => op.2.addrHex) := by
      rw [List.map_append, List.nodup_append] at hnd
      refine ⟨hnd.1, fun hmem => ?_⟩
      exact hnd.2.2 hmem (by simp)
    have ihs := ih hnd2.1
    have hmiss : (runStores ops).any
        (fun e => e.node.addrHex == op.2.addrHex) = false := by
      rw [← Bool.not_eq_true, List.any_eq_true]
      rintro ⟨e, he, hpe⟩
      have hmem : e.node ∈ (runStores ops).map (fun e => e.node) :=
        List.mem_map_of_mem _ he
      rw [ihs] at hmem
      have hmem2 : e.node ∈ ops.map (fun op => op.2) := by
        have h1 := (List.take_sublist _ _).subset hmem
        exact List.mem_reverse.mp h1
      apply hnd2.2
      have : e.node.addrHex = op.2.addrHex := by simpa using hpe
      rw [← this]
      obtain ⟨a, ha, hae⟩ := List.mem_map.mp hmem2
      exact List.mem_map.mpr ⟨a, ha, by rw [hae]⟩
    have hstep : runStores (ops ++ [op]) = (runStores ops).store op.1 op.2 := by
      unfold runStores
      rw [List.foldl_append]
      rfl
    rw [hstep]
    unfold kBucket.store
    rw [if_neg (by simp [hmiss]), List.map_append, List.reverse_append]
    simp only [List.map_cons, List.map_nil, List.reverse_cons, List.reverse_nil,
      List.nil_append, List.cons_append]
    have hblen : (runStores ops).length =
        ((ops.map (fun op => op.2)).reverse.take maxBucketSize).length := by
      rw [← ihs, List.length_map]
    rw [apply_ite (List.map (fun e : bucketEntry => e.node)), List.map_dropLast,
      List.map_cons, ihs]
    have hc : (maxBucketSize < ((⟨op.2, op.1⟩ : bucketEntry) :: runStores ops).length) =
        (maxBucketSize <
          (op.2 :: (ops.map (fun op => op.2)).reverse.take maxBucketSize).length) := by
      simp only [List.length_cons]
      rw [hblen]
    refine Eq.trans (if_congr (iff_of_eq hc) rfl rfl) ?_
    exact trim_cons_take op.2 ((ops.map (fun op => op.2)).reverse) maxBucketSize
      (by decide)

/-- C5: every reachable k-bucket holds at most 16 entries; storing a node
whose address is already present replaces the stored entry, moves it to
the front and keeps both the size and the address multiset unchanged;
and 17 stores of pairwise-distinct nodes leave exactly the 16 most
recently inserted, front = most recent, the first-inserted evicted. -/
theorem C5_bucket_invariants :
    (∀ ops : List (Nat × ENR), (runStores ops).length ≤ maxBucketSize) ∧
    (∀ (b : kBucket) (now : Nat) (n : ENR),
      b.any (fun e => e.node.addrHex == n.addrHex) = true →
      (b.store now n).length = b.length ∧
      (b.store now n).head? = some ⟨n, now⟩ ∧
      ((b.store now n).map (fun e => e.node.addrHex)).Perm
        (b.map (fun e => e.node.addrHex))) ∧
    (∀ ops : List (Nat × ENR), ops.length = 17 →
      (ops.map (fun op => op.2.addrHex)).Nodup →
      (runStores ops).map (fun e => e.node) =
        ((ops.map (fun op => op.2)).drop 1).reverse) := by
  refine ⟨runStores_length_le, fun b now n h => store_hit now h, ?_⟩
  intro ops hlen hnd
  rw [runStores_of_nodup ops hnd, List.reverse_drop]
  congr 1
  rw [List.length_map, hlen]
  rfl

/-- Concrete sequence of 17 distinct timestamped nodes. -/
def wOps : List (Nat × ENR) := (List.range 17).map (fun i => (i, ⟨i, 100 + i⟩))

/-- Witness for C5: all three conjuncts evaluated on concrete data — the
17-fold distinct insertion keeps nodes 1..16 in most-recent-first order,
and a duplicate store on a singleton bucket keeps size 1. -/
theorem C5_bucket_invariants_witness :
    (runStores wOps).length ≤ maxBucketSize ∧
    (kBucket.store [⟨⟨3, 0⟩, 5⟩] 7 ⟨3, 9⟩).length = 1 ∧
    (runStores wOps).map (fun e => e.node) =
      ((wOps.map (fun op => op.2)).drop 1).reverse :=
  ⟨C5_bucket_invariants.1 wOps,
   (C5_bucket_invariants.2.1 [⟨⟨3, 0⟩, 5⟩] 7 ⟨3, 9⟩ (by decide)).1,
   C5_bucket_invariants.2.2 wOps (by decide) (by decide)⟩

/-- C3 counterexample: on a freshly created (empty) table, asking for one
node panics at the final reslice (bound 1 beyond capacity 0) instead of
returning `min(1, 0) = 0` nodes. -/
theorem C3_findClosest_counterexample :
    kademliaTable.FindClosest (fun a b => a.addrHex + b.addrHex)
      (newKademliaTable ⟨0, 0⟩) ⟨5, 0⟩ 1 = none := by decide

/-- C3 amended: whenever `count` does not exceed the number of gathered
entries, `FindClosest` returns exactly `count` nodes — the first `count`
of the gather list sorted ascending by log-distance to the target — and
they are pairwise distinct whenever the table's entries are; for larger
`count` it panics instead of returning `min(count, total)` nodes, and the
order among equal distances is whatever the unstable sort produced, not
necessarily gather order. -/
theorem C3_findClosest_bounded (dist : ENR → ENR → Nat) (kt : kademliaTable)
    (t : ENR) (k : Nat) (hk : k ≤ (gatherNodes kt).length) :
    kademliaTable.FindClosest dist kt t k =
      some ((sortedNodes dist kt t).take k) ∧
    ((sortedNodes dist kt t).take k).length = k ∧
    List.Sorted (distLe dist t) ((sortedNodes dist kt t).take k) ∧
    (sortedNodes dist kt t).Perm (gatherNodes kt) ∧
    ((gatherNodes kt).Nodup → ((sortedNodes dist kt t).take k).Nodup) := by
  have hperm : (sortedNodes dist kt t).Perm (gatherNodes kt) :=
    List.perm_insertionSort _ _
  have hlen : (sortedNodes dist kt t).length = (gatherNodes kt).length :=
    hperm.length_eq
  refine ⟨?_, ?_, ?_, hperm, ?_⟩
  · unfold kademliaTable.FindClosest
    rw [if_pos (by omega)]
  · rw [List.length_take]
    omega
  · exact List.Pairwise.sublist (List.take_sublist _ _)
      (List.sorted_insertionSort _ _)
  · intro hnd
    exact (List.take_sublist _ _).nodup (hperm.nodup_iff.mpr hnd)

/-- A concrete log-distance stand-in whose values stay in bucket range. -/
def wDist : ENR → ENR → Nat := fun a b => 237 + (a.addrHex + b.addrHex) % 20

/-- A table holding two nodes. -/
def wTable : kademliaTable :=
  ((newKademliaTable ⟨0, 0⟩).Insert wDist 1 ⟨1, 10⟩).Insert wDist 2 ⟨2, 20⟩

/-- Witness for C3 amended, at the two-entry table with `count = 1`. -/
theorem C3_findClosest_bounded_witness :
    kademliaTable.FindClosest wDist wTable ⟨3, 0⟩ 1 =
      some ((sortedNodes wDist wTable ⟨3, 0⟩).take 1) ∧
    ((sortedNodes wDist wTable ⟨3, 0⟩).take 1).length = 1 ∧
    List.Sorted (distLe wDist ⟨3, 0⟩) ((sortedNodes wDist wTable ⟨3, 0⟩).take 1) ∧
    (sortedNodes wDist wTable ⟨3, 0⟩).Perm (gatherNodes wTable) ∧
    ((gatherNodes wTable).Nodup →
      ((sortedNodes wDist wTable ⟨3, 0⟩).take 1).Nodup) :=
  C3_findClosest_bounded wDist wTable ⟨3, 0⟩ 1 (by decide)

end discv4

namespace discv4

/-- The fields of `enr.Record` (external package) that the handlers in
part_001 read or write; times are seconds with 0 for Go's zero time
(`time.Now()` is never zero), the hash an abstract value. -/
structure Record where
  ip : Nat
  udpPort : Nat
  tcpPort : Nat
  sentPing : Nat
  sentPingHash : Nat
  receivedPing : Nat
  receivedPong : Nat
deriving DecidableEq

/-- The provisional record `serve` builds from a datagram
(part_001:116-120): the recovered identity plus the wire source address;
all timestamps zero. -/
structure Req where
  id : Nat
  ip : Nat
  udpPort : Nat

/-- `&enr.Record{PublicKey, Ip: uaddr.IP, UdpPort: uint16(uaddr.Port)}`. -/
def zeroRec (r : Req) : Record := ⟨r.ip, r.udpPort, 0, 0, 0, 0, 0⟩

/-- The engine state the handlers touch: the peer map `p.peers` (keyed by
NodeID, modelled extensionally) and the routing table, abstracted as the
log of `p.ktable.Insert` calls (the claims only concern whether a peer is
inserted). -/
structure PState where
  peers : Nat → Option Record
  table : List Nat

/-- Go map assignment `p.peers[id] = rec`. -/
def PState.set (st : PState) (id : Nat) (rec : Record) : PState :=
  ⟨fun i => if i = id then some rec else st.peers i, st.table⟩

/-- `p.ktable.Insert(peer)` as an append to the insert log. -/
def PState.insertTable (st : PState) (id : Nat) : PState :=
  ⟨st.peers, st.table ++ [id]⟩

/-- Inputs of an outbound `p.Ping` (part_001:374-406): the outcome of the
signed `write` (an error, or the packet hash it returns) and the clock. -/
structure PingCtx where
  writeResult : Except String Nat
  now : Nat

/-- The write-and-record tail of `p.Ping` (part_001:383-405): on write
failure the state is untouched; on success `SentPing` and `SentPingHash`
are set and the record stored. -/
def pingWrite (st : PState) (id : Nat) (dest : Record) (ctx : PingCtx) :
    PState × Option String :=
  match ctx.writeResult with
  | .error e => (st, some e)
  | .ok h =>
    (st.set id { dest with sentPing := ctx.now, sentPingHash := h }, none)

/-- Go `p.Ping` (part_001:374-406): skip (nil) when a ping to this peer
went out within the last hour, otherwise write and record. -/
def Ping (st : PState) (id : Nat) (dest : Record) (ctx : PingCtx) :
    PState × Option String :=
  match st.peers id with
  | some pr =>
    if ctx.now - pr.sentPing < 3600 then (st, none)
    else pingWrite st id dest ctx
  | none => pingWrite st id dest ctx

/-- Inputs of `handlePing` (part_001:231-279): the `rlp.Decode` outcome,
the parsed `from` fields of the payload, the outcome of the `p.Pong`
write, the context for the optional trailing `p.Ping`, and the clock. -/
structure PingPacket where
  decodeResult : Option String
  fromIpParse : Except String Nat
  fromPort : Nat
  pongResult : Option String
  pingCtx : PingCtx
  now : Nat

/-- The store-and-maybe-insert step shared by both handlers
(part_001:263-271 and 296-309): store the record in the peer map and, iff
both bonding timestamps are non-zero, insert it into the routing table. -/
def bondInsert (st : PState) (id : Nat) (peer : Record) : PState :=
  let st1 := st.set id peer
  if peer.receivedPing ≠ 0 ∧ peer.receivedPong ≠ 0 then st1.insertTable id
  else st1

/-- The state-mutation tail of `handlePing` (part_001:262-278): create or
update the peer, stamp `ReceivedPing`, run the bonded check, and issue an
outbound Ping when the last one is over an hour old. -/
def pingStateStep (st : PState) (req : Req) (pk : PingPacket) :
    PState × Option String :=
  let peer := { (st.peers req.id).getD (zeroRec req) with
                receivedPing := pk.now }
  let st2 := bondInsert st req.id peer
  if 3600 < pk.now - peer.sentPing then Ping st2 req.id peer pk.pingCtx
  else (st2, none)

/-- Go `handlePing` (part_001:231-279).  Checks in source order: decode,
`from`-ip parse ("malformed ping from data"), ip against the wire source,
port against the wire source; then the Pong reply is written (an error
returns before any state is touched); only then `pingStateStep` runs.
Error strings follow the source (apostrophe elided). -/
def handlePing (st : PState) (req : Req) (pk : PingPacket) :
    PState × Option String :=
  match pk.decodeResult with
  | some e => (st, some e)
  | none =>
    match pk.fromIpParse with
    | .error _ => (st, some "malformed ping from data")
    | .ok fromIp =>
      if fromIp ≠ req.ip then (st, some "packet ip address does not match udp")
      else if pk.fromPort ≠ req.udpPort then
        (st, some "mismatch ping from-port with udp packet")
      else match pk.pongResult with
      | some e => (st, some e)
      | none => pingStateStep st req pk

/-- Inputs of `handlePong` (part_001:281-311): the `rlp.Decode` outcome,
the `item.At(1).Hash()` outcome, and the clock. -/
structure PongPacket where
  decodeResult : Option String
  hashResult : Except String Nat
  now : Nat

/-- Go `handlePong` (part_001:281-311).  Checks in source order: decode,
hash extraction, peer lookup ("missing peer"), ping-hash match ("invalid
ping hash"), the one-minute window ("expired ping hash"); only then
`ReceivedPong` is set and the bonded check decides the table insert. -/
def handlePong (st : PState) (req : Req) (pk : PongPacket) :
    PState × Option String :=
  match pk.decodeResult with
  | some e => (st, some e)
  | none =>
    match pk.hashResult with
    | .error e => (st, some e)
    | .ok hash =>
      match st.peers req.id with
      | none => (st, some "missing peer")
      | some peer =>
        if hash ≠ peer.sentPingHash then (st, some "invalid ping hash")
        else if 60 < pk.now - peer.sentPing then (st, some "expired ping hash")
        else
          (bondInsert st req.id { peer with receivedPong := pk.now }, none)

/-- Inputs of `serve` (part_001:100-138): packet length, the hash and
signature-recovery checks, the dispatched kind and the dispatched
handler's result (`none` for a nil error). -/
structure ServePacket where
  len : Nat
  hashOk : Bool
  recoverOk : Bool
  kind : Nat
  handlerResult : Option String

/-- Modelled from the spec: `isxerrors.Errorf` (package `isxerrors`, not
under src/) — "the error-wrapping helper formats a nil error into a
non-nil value", so the wrap at part_001:137 always yields a non-nil
error, formatting nil as a placeholder. -/
def errorfServing (kind : Nat) (e : Option String) : Option String :=
  some ("serving " ++ toString kind ++ ": " ++ e.getD "nil")

/-- Go `serve` (part_001:100-138): the three framing checks, then the
dispatch on kind 0x01..0x05 (an unknown kind only logs, leaving the nil
error), and the unconditional trailing wrap. -/
def serve (pk : ServePacket) : Option String :=
  if pk.len ≤ 98 then some "discv4 packet too small"
  else if pk.hashOk = false then some "packet contains invalid hash"
  else if pk.recoverOk = false then some "unable to extract pubkey from packet"
  else if 1 ≤ pk.kind ∧ pk.kind ≤ 5 then errorfServing pk.kind pk.handlerResult
  else errorfServing pk.kind none

end discv4

namespace discv4

/-- An outbound `Ping` never touches the routing table, and the only peer
entry it can change is the destination's ping bookkeeping (the bonding
timestamps are preserved). -/
theorem Ping_effects (st : PState) (id : Nat) (dest : Record) (ctx : PingCtx) :
    (Ping st id dest ctx).1.table = st.table ∧
    ((Ping st id dest ctx).1.peers id = st.peers id ∨
      ∃ sp sph, (Ping st id dest ctx).1.peers id =
        some { dest with sentPing := sp, sentPingHash := sph }) := by
  unfold Ping pingWrite
  rcases hpr : st.peers id with - | pr <;> simp only [hpr]
  · rcases hw : ctx.writeResult with e | h <;> simp only [hw]
    · exact ⟨by simp [PState.set], Or.inl (by simp [hpr])⟩
    · exact ⟨by simp [PState.set], Or.inr ⟨ctx.now, h, by simp [PState.set]⟩⟩
  · split
    · exact ⟨by simp [PState.set], Or.inl (by simp [hpr])⟩
    · rcases hw : ctx.writeResult with e | h <;> simp only [hw]
      · exact ⟨by simp [PState.set], Or.inl (by simp [hpr])⟩
      · exact ⟨by simp [PState.set], Or.inr ⟨ctx.now, h, by simp [PState.set]⟩⟩

/-- `bondInsert` always stores the record, and appends to the table log
exactly when the record is bonded. -/
theorem bondInsert_effects (st : PState) (id : Nat) (peer : Record) :
    (bondInsert st id peer).peers id = some peer ∧
    (((bondInsert st id peer).table = st.table ∧
        ¬(peer.receivedPing ≠ 0 ∧ peer.receivedPong ≠ 0)) ∨
      ((bondInsert st id peer).table = st.table ++ [id] ∧
        peer.receivedPing ≠ 0 ∧ peer.receivedPong ≠ 0)) := by
  unfold bondInsert
  by_cases hb : peer.receivedPing ≠ 0 ∧ peer.receivedPong ≠ 0
  · rw [if_pos hb]
    exact ⟨by simp [PState.set, PState.insertTable], Or.inr ⟨rfl, hb⟩⟩
  · rw [if_neg hb]
    exact ⟨by simp [PState.set], Or.inl ⟨rfl, hb⟩⟩

/-- The mutation tail of `handlePing` either leaves the table alone or
appends exactly the sender, and in the latter case the stored record is
bonded. -/
theorem pingStateStep_cases (st : PState) (req : Req) (pk : PingPacket) :
    (pingStateStep st req pk).1.table = st.table ∨
    (∃ p, (pingStateStep st req pk).1.peers req.id = some p ∧
      p.receivedPing ≠ 0 ∧ p.receivedPong ≠ 0 ∧
      (pingStateStep st req pk).1.table = st.table ++ [req.id]) := by
  simp only [pingStateStep]
  set peer := { (st.peers req.id).getD (zeroRec req) with
                receivedPing := pk.now } with hpeer
  obtain ⟨hset, hcases⟩ := bondInsert_effects st req.id peer
  split
  · obtain ⟨htab, hp⟩ :=
      Ping_effects (bondInsert st req.id peer) req.id peer pk.pingCtx
    rcases hcases with ⟨ht, hnb⟩ | ⟨ht, hb1, hb2⟩
    · exact Or.inl (by rw [htab, ht])
    · refine Or.inr ?_
      rcases hp with hp | ⟨sp, sph, hp⟩
      · exact ⟨peer, by rw [hp, hset], hb1, hb2, by rw [htab, ht]⟩
      · exact ⟨{ peer with sentPing := sp, sentPingHash := sph }, by rw [hp],
          by simpa using hb1, by simpa using hb2, by rw [htab, ht]⟩
  · rcases hcases with ⟨ht, hnb⟩ | ⟨ht, hb1, hb2⟩
    · exact Or.inl ht
    · exact Or.inr ⟨peer, hset, hb1, hb2, ht⟩

end discv4

namespace discv4

/-- C6: a handler inserts a peer into the Kademlia table exactly when
both `received_ping` and `received_pong` are non-zero.  Backward: any run
of `handlePing`/`handlePong` (the only call sites of `ktable.Insert` in
part_001) either leaves the table untouched or appends exactly the
sender, whose stored record is then bonded.  Forward: a successful
`handlePing` with a non-zero clock inserts the sender as soon as its
stored `received_pong` is non-zero, and a successful `handlePong` inserts
as soon as the stored `received_ping` is non-zero. -/
theorem C6_table_insert_iff_bonded :
    (∀ (st : PState) (req : Req) (pk : PingPacket),
      (handlePing st req pk).1.table = st.table ∨
      (∃ p, (handlePing st req pk).1.peers req.id = some p ∧
        p.receivedPing ≠ 0 ∧ p.receivedPong ≠ 0 ∧
        (handlePing st req pk).1.table = st.table ++ [req.id])) ∧
    (∀ (st : PState) (req : Req) (pk : PingPacket) (fromIp : Nat),
      pk.decodeResult = none → pk.fromIpParse = .ok fromIp →
      fromIp = req.ip → pk.fromPort = req.udpPort → pk.pongResult = none →
      pk.now ≠ 0 →
      ((st.peers req.id).getD (zeroRec req)).receivedPong ≠ 0 →
      (handlePing st req pk).1.table = st.table ++ [req.id]) ∧
    (∀ (st : PState) (req : Req) (pk : PongPacket),
      (handlePong st req pk).1.table = st.table ∨
      (∃ p, (handlePong st req pk).1.peers req.id = some p ∧
        p.receivedPing ≠ 0 ∧ p.receivedPong ≠ 0 ∧
        (handlePong st req pk).1.table = st.table ++ [req.id])) ∧
    (∀ (st : PState) (req : Req) (pk : PongPacket) (hash : Nat) (peer : Record),
      pk.decodeResult = none → pk.hashResult = .ok hash →
      st.peers req.id = some peer → hash = peer.sentPingHash →
      ¬(60 < pk.now - peer.sentPing) → pk.now ≠ 0 → peer.receivedPing ≠ 0 →
      (handlePong st req pk).1.table = st.table ++ [req.id]) := by
  refine ⟨?_, ?_, ?_, ?_⟩
  · intro st req pk
    unfold handlePing
    rcases hd : pk.decodeResult with - | e <;> simp only [hd]
    · rcases hip : pk.fromIpParse with e | fromIp <;> simp only [hip]
      · exact Or.inl (by simp)
      · split
        · exact Or.inl (by simp)
        · split
          · exact Or.inl (by simp)
          · rcases hpo : pk.pongResult with - | e <;> simp only [hpo]
            · exact pingStateStep_cases st req pk
            · exact Or.inl (by simp)
    · exact Or.inl (by simp)
  · intro st req pk fromIp hd hip heq hport hpo hnow hpong
    unfold handlePing
    simp only [hd, hip, hpo]
    rw [if_neg (by simp [heq]), if_neg (by simp [hport])]
    simp only [pingStateStep]
    set peer := { (st.peers req.id).getD (zeroRec req) with
                  receivedPing := pk.now } with hpeer
    have hb : peer.receivedPing ≠ 0 ∧ peer.receivedPong ≠ 0 := by
      rw [hpeer]
      exact ⟨by simpa using hnow, by simpa using hpong⟩
    have htab : (bondInsert st req.id peer).table = st.table ++ [req.id] := by
      rcases (bondInsert_effects st req.id peer).2 with ⟨-, hnb⟩ | ⟨ht, -⟩
      · exact absurd hb hnb
      · exact ht
    split
    · rw [(Ping_effects (bondInsert st req.id peer) req.id peer pk.pingCtx).1,
        htab]
    · exact htab
  · intro st req pk
    unfold handlePong
    rcases hd : pk.decodeResult with - | e <;> simp only [hd]
    · rcases hh : pk.hashResult with e | hash <;> simp only [hh]
      · exact Or.inl (by simp)
      · rcases hpr : st.peers req.id with - | peer <;> simp only [hpr]
        · exact Or.inl (by simp)
        · split
          · exact Or.inl (by simp)
          · split
            · exact Or.inl (by simp)
            · obtain ⟨hset, hcases⟩ := bondInsert_effects st req.id
                { peer with receivedPong := pk.now }
              rcases hcases with ⟨ht, -⟩ | ⟨ht, hb1, hb2⟩
              · exact Or.inl ht
              · exact Or.inr ⟨{ peer with receivedPong := pk.now },
                  hset, hb1, hb2, ht⟩
    · exact Or.inl (by simp)
  · intro st req pk hash peer hd hh hpr heq hexp hnow hping
    unfold handlePong
    simp only [hd, hh, hpr]
    rw [if_neg (by simp [heq]), if_neg hexp]
    have hb : ({ peer with receivedPong := pk.now } : Record).receivedPing ≠ 0 ∧
        ({ peer with receivedPong := pk.now } : Record).receivedPong ≠ 0 :=
      ⟨by simpa using hping, by simpa using hnow⟩
    rcases (bondInsert_effects st req.id { peer with receivedPong := pk.now }).2
      with ⟨-, hnb⟩ | ⟨ht, -⟩
    · exact absurd hb hnb
    · exact ht

/-- C7: with the payload decoded and its ping-hash extracted, `handlePong`
rejects — returning the source's error and leaving the state unchanged —
when the sender is unknown, when the ping-hash differs from the stored
`sent_ping_hash`, or when more than a minute passed since `sent_ping`;
when all three checks pass it returns nil and stamps `received_pong`. -/
theorem C7_pong_rejections (st : PState) (req : Req) (pk : PongPacket)
    (hash : Nat) (hd : pk.decodeResult = none)
    (hh : pk.hashResult = .ok hash) :
    (st.peers req.id = none → handlePong st req pk = (st, some "missing peer")) ∧
    (∀ peer, st.peers req.id = some peer → hash ≠ peer.sentPingHash →
      handlePong st req pk = (st, some "invalid ping hash")) ∧
    (∀ peer, st.peers req.id = some peer → hash = peer.sentPingHash →
      60 < pk.now - peer.sentPing →
      handlePong st req pk = (st, some "expired ping hash")) ∧
    (∀ peer, st.peers req.id = some peer → hash = peer.sentPingHash →
      ¬(60 < pk.now - peer.sentPing) →
      (handlePong st req pk).2 = none ∧
      (handlePong st req pk).1.peers req.id =
        some { peer with receivedPong := pk.now }) := by
  refine ⟨?_, ?_, ?_, ?_⟩
  · intro hpr
    unfold handlePong
    simp only [hd, hh, hpr]
  · intro peer hpr hne
    unfold handlePong
    simp only [hd, hh, hpr]
    rw [if_pos hne]
  · intro peer hpr heq hexp
    unfold handlePong
    simp only [hd, hh, hpr]
    rw [if_neg (by simp [heq]), if_pos hexp]
  · intro peer hpr heq hexp
    unfold handlePong
    simp only [hd, hh, hpr]
    rw [if_neg (by simp [heq]), if_neg hexp]
    exact ⟨rfl, (bondInsert_effects st req.id
      { peer with receivedPong := pk.now }).1⟩

/-- C9: when every framing check passes and the dispatched handler
returns nil, `serve` still returns a non-nil error, because the trailing
`isxerrors.Errorf("serving %x: %w", kind, err)` wraps the nil into a
non-nil value. -/
theorem C9_serve_nonnil_on_success (pk : ServePacket) (h1 : 98 < pk.len)
    (h2 : pk.hashOk = true) (h3 : pk.recoverOk = true)
    (h4 : pk.handlerResult = none) : (serve pk).isSome = true := by
  unfold serve
  rw [if_neg (by omega), if_neg (by simp [h2]), if_neg (by simp [h3])]
  split <;> simp [errorfServing, h4]

/-- C10: when the from-field checks pass but the Pong write fails,
`handlePing` returns that error with the whole state — peer map,
`received_ping`, routing table — exactly as it was, known sender or
not. -/
theorem C10_pong_write_failure_preserves_state (st : PState) (req : Req)
    (pk : PingPacket) (fromIp : Nat) (e : String)
    (h1 : pk.decodeResult = none) (h2 : pk.fromIpParse = .ok fromIp)
    (h3 : fromIp = req.ip) (h4 : pk.fromPort = req.udpPort)
    (h5 : pk.pongResult = some e) :
    handlePing st req pk = (st, some e) := by
  unfold handlePing
  simp only [h1, h2, h5]
  rw [if_neg (by simp [h3]), if_neg (by simp [h4])]

end discv4

namespace discv4

/-- Empty engine state. -/
def wSt : PState := ⟨fun _ => none, []⟩

/-- A sender: NodeID 7 at wire address (2, 3). -/
def wReq : Req := ⟨7, 2, 3⟩

/-- A stored peer record with an outstanding ping (hash 99, sent at 50)
that has been pinged by us but has not ponged yet. -/
def wPeer : Record := ⟨2, 3, 0, 50, 99, 20, 0⟩

/-- State holding `wPeer` under the sender's NodeID. -/
def wStP : PState := ⟨fun i => if i = 7 then some wPeer else none, []⟩

/-- Like `wPeer` but with a received pong, so a Ping bonds it. -/
def wPeerB : Record := ⟨2, 3, 0, 50, 99, 20, 30⟩

/-- State holding the half-bonded `wPeerB`. -/
def wStB : PState := ⟨fun i => if i = 7 then some wPeerB else none, []⟩

/-- A valid inbound Ping whose Pong reply succeeds. -/
def wPingOk : PingPacket := ⟨none, .ok 2, 3, none, ⟨.ok 5, 100⟩, 100⟩

/-- A valid inbound Ping whose Pong write fails. -/
def wPingBad : PingPacket := ⟨none, .ok 2, 3, some "udp write failed", ⟨.ok 5, 100⟩, 100⟩

/-- A valid inbound Pong matching `wPeer`'s outstanding ping. -/
def wPongOk : PongPacket := ⟨none, .ok 99, 100⟩

/-- Witness for C6: concrete bonding runs of both handlers — the forward
direction inserts NodeID 7 exactly once, and the backward disjunctions
instantiated on the empty state. -/
theorem C6_table_insert_iff_bonded_witness :
    (handlePing wStB wReq wPingOk).1.table = wStB.table ++ [wReq.id] ∧
    (handlePong wStB wReq wPongOk).1.table = wStB.table ++ [wReq.id] ∧
    ((handlePing wSt wReq wPingOk).1.table = wSt.table ∨
      (∃ p, (handlePing wSt wReq wPingOk).1.peers wReq.id = some p ∧
        p.receivedPing ≠ 0 ∧ p.receivedPong ≠ 0 ∧
        (handlePing wSt wReq wPingOk).1.table = wSt.table ++ [wReq.id])) ∧
    ((handlePong wSt wReq wPongOk).1.table = wSt.table ∨
      (∃ p, (handlePong wSt wReq wPongOk).1.peers wReq.id = some p ∧
        p.receivedPing ≠ 0 ∧ p.receivedPong ≠ 0 ∧
        (handlePong wSt wReq wPongOk).1.table = wSt.table ++ [wReq.id])) :=
  ⟨C6_table_insert_iff_bonded.2.1 wStB wReq wPingOk 2 rfl rfl rfl rfl rfl
      (by decide) (by decide),
   C6_table_insert_iff_bonded.2.2.2 wStB wReq wPongOk 99 wPeerB rfl rfl rfl
      (by decide) (by decide) (by decide) (by decide),
   C6_table_insert_iff_bonded.1 wSt wReq wPingOk,
   C6_table_insert_iff_bonded.2.2.1 wSt wReq wPongOk⟩

/-- Witness for C7: the three rejections and the acceptance, on concrete
states (unknown sender; wrong hash 98; pong 150 s after the ping; and a
match within the window). -/
theorem C7_pong_rejections_witness :
    handlePong wSt wReq wPongOk = (wSt, some "missing peer") ∧
    handlePong wStP wReq ⟨none, .ok 98, 100⟩ = (wStP, some "invalid ping hash") ∧
    handlePong wStP wReq ⟨none, .ok 99, 200⟩ = (wStP, some "expired ping hash") ∧
    (handlePong wStP wReq wPongOk).2 = none ∧
    (handlePong wStP wReq wPongOk).1.peers wReq.id =
      some { wPeer with receivedPong := 100 } :=
  ⟨(C7_pong_rejections wSt wReq wPongOk 99 rfl rfl).1 rfl,
   (C7_pong_rejections wStP wReq ⟨none, .ok 98, 100⟩ 98 rfl rfl).2.1 wPeer rfl
      (by decide),
   (C7_pong_rejections wStP wReq ⟨none, .ok 99, 200⟩ 99 rfl rfl).2.2.1 wPeer rfl
      (by decide) (by decide),
   ((C7_pong_rejections wStP wReq wPongOk 99 rfl rfl).2.2.2 wPeer rfl (by decide)
      (by decide)).1,
   ((C7_pong_rejections wStP wReq wPongOk 99 rfl rfl).2.2.2 wPeer rfl (by decide)
      (by decide)).2⟩

/-- Witness for C9: a well-formed 200-byte datagram of kind 0x01 whose
handler returned nil still makes `serve` return a non-nil error. -/
theorem C9_serve_nonnil_on_success_witness :
    (serve ⟨200, true, true, 1, none⟩).isSome = true :=
  C9_serve_nonnil_on_success ⟨200, true, true, 1, none⟩ (by decide) rfl rfl rfl

/-- Witness for C10: a previously unknown sender's valid Ping whose Pong
write fails leaves the empty state exactly empty. -/
theorem C10_pong_write_failure_preserves_state_witness :
    handlePing wSt wReq wPingBad = (wSt, some "udp write failed") :=
  C10_pong_write_failure_preserves_state wSt wReq wPingBad 2 "udp write failed"
    rfl rfl rfl rfl rfl

end discv4
